import Mathlib

/-!
Shallow embedding of the thread-rotation bot (the "enhanced" variant of
`threadlocker.js`: per-channel `ThreadCache`, queueing `RateLimit`,
scheduled-backoff `withRetry`, sequential chunked `processThreadsBatch`,
and the `ThreadCreate` reconciliation pipeline).

External side effects (the Discord calls `setArchived(false)`, `send(...)`,
`setLocked(true)`) are modelled as emitted `Action` values; a failure oracle
`Action → Option String` stands for the possibility that any such external
call throws (the `Option String` being the thrown error's message).
Timestamps are naturals (milliseconds).
-/

namespace ThreadLocker

/-- Snapshot of a Discord thread object as the bot reads it: identifier,
parent channel, display name, creation timestamp, archived and locked flags. -/
structure Thread where
  id : Nat
  parentId : Nat
  threadName : String
  createdAt : Nat
  archived : Bool
  locked : Bool
deriving DecidableEq, Repr

/-- The three external write calls the bot can issue against a thread:
`thread.setArchived(false)`, `thread.send(MESSAGE_CONTENT)`,
`thread.setLocked(true)`. -/
inductive Action where
  | setArchivedFalse (threadId : Nat)
  | sendMessage (threadId : Nat)
  | setLockedTrue (threadId : Nat)
deriving DecidableEq, Repr

/-- Thread id an action targets. -/
def Action.target : Action → Nat
  | .setArchivedFalse i => i
  | .sendMessage i => i
  | .setLockedTrue i => i

/-- Recogniser for send-message actions. -/
def Action.isSend : Action → Bool
  | .sendMessage _ => true
  | _ => false

-- Constants of the source (`threadlocker.js`, enhanced variant).
def CACHE_DURATION : Nat := 5 * 60 * 1000
def RATE_LIMIT_MAX_OPS : Nat := 5
def RATE_LIMIT_WINDOW : Nat := 10000
def RETRY_MAX_ATTEMPTS : Nat := 2
def BATCH_SIZE : Nat := 5

/-- One external call: the oracle decides whether it throws. A successful
call contributes itself to the action trace; a throwing call contributes
nothing and surfaces its error message. -/
def externalCall (oracle : Action → Option String) (a : Action) :
    List Action × Option String :=
  match oracle a with
  | some e => ([], some e)
  | none => ([a], none)

/-- `processThread(thread, isSecondLatest)`: unarchive if archived, send the
redirect message if selected as second latest, lock if not locked — three
sequential external calls. The source wraps the body in try/catch that logs
and RETHROWS (`throw error`), so an error from any call aborts the remaining
calls for this thread and surfaces to the caller; that is the `Option String`
component. -/
def processThread (oracle : Action → Option String) (t : Thread)
    (isSecondLatest : Bool) : List Action × Option String :=
  match (if t.archived then externalCall oracle (Action.setArchivedFalse t.id)
         else ([], none)) with
  | (a1, some e) => (a1, some e)
  | (a1, none) =>
    match (if isSecondLatest then externalCall oracle (Action.sendMessage t.id)
           else ([], none)) with
    | (a2, some e) => (a1 ++ a2, some e)
    | (a2, none) =>
      match (if !t.locked then externalCall oracle (Action.setLockedTrue t.id)
             else ([], none)) with
      | (a3, err) => (a1 ++ a2 ++ a3, err)

/-- Mutable loop state of `processThreadsBatch`: the `processedThreads` set
(as a list of ids) and the `secondLatestProcessed` flag. -/
structure BatchSt where
  processed : List Nat
  secondLatestProcessed : Bool
deriving DecidableEq, Repr

/-- Sequential processing of one list of threads (the inner
`for (const thread of batch)` loop of `processThreadsBatch`). The trigger
(`thread.id === newThreadId`) and already-processed ids are skipped.
`rateLimit.canProceed` resolves `true` on both of its branches (immediate
admission and queued release), so the guard always takes the processing
branch; the rate-limiter's own state evolution is modelled separately by
`canProceedStep`. An error thrown by `processThread` is not caught here:
it aborts the loop (third component `some e`). -/
def processBatchGo (oracle : Action → Option String) (newThreadId : Nat) :
    List Thread → BatchSt → List Action × BatchSt × Option String
  | [], st => ([], st, none)
  | t :: rest, st =>
    if t.id = newThreadId ∨ t.id ∈ st.processed then
      processBatchGo oracle newThreadId rest st
    else
      let isSecondLatest := !st.secondLatestProcessed && (t.id != newThreadId)
      let st1 : BatchSt :=
        { processed := st.processed,
          secondLatestProcessed := st.secondLatestProcessed || isSecondLatest }
      match processThread oracle t isSecondLatest with
      | (acts, some e) => (acts, st1, some e)
      | (acts, none) =>
        let st2 : BatchSt := { st1 with processed := st1.processed ++ [t.id] }
        let r := processBatchGo oracle newThreadId rest st2
        (acts ++ r.1, r.2.1, r.2.2)

/-- Recursion core of the batch slicing, with explicit fuel (an upper bound
on the list length, so the recursion is structural and computable by the
kernel); each step peels off `BATCH_SIZE` threads. -/
def toBatchesGo : Nat → List Thread → List (List Thread)
  | _, [] => []
  | 0, _ :: _ => []
  | fuel + 1, t :: rest =>
    (t :: rest).take BATCH_SIZE :: toBatchesGo fuel ((t :: rest).drop BATCH_SIZE)

/-- The batch slicing `threads.slice(i, i + BATCH_SIZE)` of
`processThreadsBatch`: the consecutive `BATCH_SIZE`-sized chunks of the
thread list. -/
def toBatches (l : List Thread) : List (List Thread) :=
  toBatchesGo l.length l

/-- Outer loop of `processThreadsBatch`: the batches run sequentially,
threading the loop state; an uncaught error from a batch aborts the
remaining batches. -/
def runBatches (oracle : Action → Option String) (newThreadId : Nat) :
    List (List Thread) → BatchSt → List Action × BatchSt × Option String
  | [], st => ([], st, none)
  | b :: bs, st =>
    match processBatchGo oracle newThreadId b st with
    | (acts, st1, some e) => (acts, st1, some e)
    | (acts, st1, none) =>
      let r := runBatches oracle newThreadId bs st1
      (acts ++ r.1, r.2.1, r.2.2)

/-- `processThreadsBatch(threads, newThreadId)`: slice into batches of
`BATCH_SIZE`, run them in order starting from the empty processed set and
`secondLatestProcessed = false`. Result: the trace of completed external
calls and the uncaught error, if any. -/
def processThreadsBatch (oracle : Action → Option String)
    (threads : List Thread) (newThreadId : Nat) : List Action × Option String :=
  let r := runBatches oracle newThreadId (toBatches threads) ⟨[], false⟩
  (r.1, r.2.2)

/-- The sort `(a, b) => b.createdAt - a.createdAt`: a stable sort descending
by creation timestamp (modelled by insertion sort; only that the result is a
permutation sorted by descending `createdAt` is used). -/
def sortDesc (l : List Thread) : List Thread :=
  List.insertionSort (fun a b => b.createdAt ≤ a.createdAt) l

/-- The reconciler's thread selection in the `ThreadCreate` handler:
`allThreads.filter(t => !t.locked).sort((a, b) => b.createdAt - a.createdAt)`. -/
def unlockedSorted (snapshot : List Thread) : List Thread :=
  sortDesc (snapshot.filter (fun t => !t.locked))

/-- Core of the `ThreadCreate` handler after the channel filter: compute the
unlocked threads sorted newest-first and, when at least 2 remain, run
`processThreadsBatch` against the triggering thread's id; otherwise do
nothing. -/
def reconcileActions (oracle : Action → Option String) (snapshot : List Thread)
    (triggerId : Nat) : List Action × Option String :=
  let unlockedThreads := unlockedSorted snapshot
  if 2 ≤ unlockedThreads.length then
    processThreadsBatch oracle unlockedThreads triggerId
  else ([], none)

/-- Failure oracle of a run in which no external call throws. -/
def noFail : Action → Option String := fun _ => none

/-- The action plan of a failure-free reconciliation run. -/
def reconcile (snapshot : List Thread) (triggerId : Nat) : List Action :=
  (reconcileActions noFail snapshot triggerId).1

/-!
Rate limiter (`RateLimit`), specialised to one thread id. The source keeps
`this.operations : Map<threadId, Nat[]>`; since `canProceed` touches only the
entry of its own `threadId`, we model the evolution of a single entry. The
fields `admitted` and `released` are observation history, not source state:
`admitted` records the timestamps of calls admitted immediately (exactly the
pushes into `this.operations`), `released` records, for each call that found
the window full and was queued, the time `now + timeWindow` at which its
`setTimeout` resolves the pending promise with `true`. A released call
records nothing in `this.operations` and rechecks nothing.
-/

/-- State of one thread's rate-limit entry plus the admission history. -/
structure RLState where
  ops : List Nat
  admitted : List Nat
  released : List Nat
deriving DecidableEq, Repr

/-- One `canProceed(threadId)` call at time `now`: prune timestamps older
than `timeWindow`; if still at least `maxOperations` remain, queue the caller
(released with value `true` at `now + timeWindow`, recording nothing);
otherwise record `now` and admit immediately. -/
def canProceedStep (maxOperations timeWindow : Nat) (st : RLState) (now : Nat) :
    RLState :=
  let validOps := st.ops.filter (fun time => now - time < timeWindow)
  if maxOperations ≤ validOps.length then
    { st with released := st.released ++ [now + timeWindow] }
  else
    { ops := validOps ++ [now], admitted := st.admitted ++ [now],
      released := st.released }

/-- Run a sequence of `canProceed` calls (their `Date.now()` values) against
a fresh rate-limit entry. -/
def rlRun (maxOperations timeWindow : Nat) (calls : List Nat) : RLState :=
  calls.foldl (canProceedStep maxOperations timeWindow) ⟨[], [], []⟩

/-- Number of the given operation times that fall in the trailing window
`(T - timeWindow, T]`. -/
def windowCount (timeWindow : Nat) (times : List Nat) (T : Nat) : Nat :=
  (times.filter (fun s => s ≤ T && T - s < timeWindow)).length

/-!
Thread cache (`ThreadCache`), specialised to one channel id: `get` touches
only the entry of its own `channelId`, so we model a single entry
(`Option CacheEntry`), returning the read result and the entry afterwards.
-/

/-- One per-channel cache record: fetch timestamp and thread-list snapshot. -/
structure CacheEntry where
  timestamp : Nat
  threads : List Thread
deriving DecidableEq, Repr

/-- `ThreadCache.get(channelId)` at time `now`: if the entry is absent or
`now - data.timestamp > this.duration`, delete the entry and return `null`;
otherwise return the snapshot and keep the entry. -/
def ThreadCache.get (duration : Nat) (entry : Option CacheEntry) (now : Nat) :
    Option (List Thread) × Option CacheEntry :=
  match entry with
  | none => (none, none)
  | some data =>
    if duration < now - data.timestamp then (none, none)
    else (some data.threads, some data)

/-!
Retry executor (`withRetry`). The wrapped operation is modelled as a map
from attempt number (1-based) to that attempt's outcome. The result records
the outcome, how many times the operation was invoked, and the backoff
delays awaited between attempts.
-/

/-- The configured backoff schedule `delays = [1000, 2000, 4000]`. -/
def RETRY_DELAYS : List Nat := [1000, 2000, 4000]

/-- Backoff before the attempt after a failed `attempt`:
`delays[attempt - 1] || delays[delays.length - 1]`. (All schedule entries
are nonzero, so JavaScript's `||` fallback fires exactly when the index is
out of range.) -/
def retryDelay (attempt : Nat) : Nat :=
  RETRY_DELAYS.getD (attempt - 1) (RETRY_DELAYS.getD (RETRY_DELAYS.length - 1) 0)

/-- Outcome of a `withRetry` run: the returned value; the thrown
`Operation failed after ... attempts: ...` error; or the `TypeError` raised
by reading `lastError.message` when `lastError` was never assigned. -/
inductive RetryOutcome (α : Type) where
  | success (value : α)
  | exhausted (message : String)
  | typeErrorNoLastError
deriving DecidableEq, Repr

/-- Result of a `withRetry` run: outcome, number of invocations of the
wrapped operation, and the sequence of backoff delays awaited. -/
structure RetryResult (α : Type) where
  outcome : RetryOutcome α
  attemptsMade : Nat
  delaysWaited : List Nat
deriving DecidableEq, Repr

/-- The message of the error thrown after the loop:
`Operation failed after ${maxRetries} attempts: ${lastError.message}`. -/
def exhaustMsg (maxRetries : Nat) (lastMsg : String) : String :=
  "Operation failed after " ++ toString maxRetries ++ " attempts: " ++ lastMsg

/-- The `throw new Error(...)` after the loop: reading `lastError.message`
when `lastError` is unset is itself a `TypeError`. -/
def finalThrow (α : Type) (maxRetries : Nat) (lastError : Option String)
    (attempts : Nat) (delays : List Nat) : RetryResult α :=
  match lastError with
  | some m => ⟨.exhausted (exhaustMsg maxRetries m), attempts, delays⟩
  | none => ⟨.typeErrorNoLastError, attempts, delays⟩

/-- The `for (let attempt = 1; attempt <= maxRetries; attempt++)` loop of
`withRetry`, carrying `lastError` and the delays awaited so far. The number
of loop iterations still available, `maxRetries + 1 - attempt`, is passed as
explicit fuel so the recursion is structural: fuel `0` means
`attempt > maxRetries` (loop exit, reaching the final throw with whatever
`lastError` holds), fuel `1` means `attempt === maxRetries` (a failure here
breaks to the final throw carrying this error), and with more fuel a failure
awaits the scheduled backoff and retries at `attempt + 1`. -/
def withRetryLoop {α : Type} (op : Nat → Except String α) (maxRetries : Nat)
    (lastError : Option String) (delays : List Nat) (attempt : Nat) :
    Nat → RetryResult α
  | 0 => finalThrow α maxRetries lastError (attempt - 1) delays
  | 1 =>
    match op attempt with
    | .ok v => ⟨.success v, attempt, delays⟩
    | .error e => finalThrow α maxRetries (some e) attempt delays
  | fuel + 2 =>
    match op attempt with
    | .ok v => ⟨.success v, attempt, delays⟩
    | .error e =>
      withRetryLoop op maxRetries (some e) (delays ++ [retryDelay attempt])
        (attempt + 1) (fuel + 1)

/-- `withRetry(operation, maxRetries)`: start the loop at attempt 1 with
`lastError` unset; the fuel for attempt 1 is `maxRetries + 1 - 1`. -/
def withRetry {α : Type} (op : Nat → Except String α) (maxRetries : Nat) :
    RetryResult α :=
  withRetryLoop op maxRetries none [] 1 maxRetries

/-!
Concrete threads and oracles used by witnesses and counterexamples.
-/

/-- Demo thread: oldest, unlocked. -/
def demoT1 : Thread := ⟨1, 9, "t1", 1, false, false⟩

/-- Demo thread: second newest, unlocked. -/
def demoT2 : Thread := ⟨2, 9, "t2", 2, false, false⟩

/-- Demo thread: newest, unlocked (the trigger in the demo scenario). -/
def demoT3 : Thread := ⟨3, 9, "t3", 3, false, false⟩

/-- Oracle making the external send call to thread 1 throw. -/
def failSendOracle : Action → Option String :=
  fun a => if a = Action.sendMessage 1 then some "ExternalOpError" else none

/-- Snapshot for the failure-propagation scenario: trigger id 0 (newest),
then threads 1 and 2, all unlocked. -/
def failSnapshot : List Thread :=
  [⟨0, 9, "trigger", 3, false, false⟩, ⟨1, 9, "t1", 2, false, false⟩,
   ⟨2, 9, "t2", 1, false, false⟩]

/-!
Helper lemmas about `processThread`.
-/

theorem processThread_noFail_eq (t : Thread) (sl : Bool) :
    processThread noFail t sl =
      ((if t.archived then [Action.setArchivedFalse t.id] else []) ++
       (if sl then [Action.sendMessage t.id] else []) ++
       (if !t.locked then [Action.setLockedTrue t.id] else []), none) := by
  cases ha : t.archived <;> cases sl <;> cases hl : t.locked <;>
    simp [processThread, externalCall, noFail, ha, hl]

theorem processThread_targets (oracle : Action → Option String) (t : Thread)
    (sl : Bool) : ∀ a ∈ (processThread oracle t sl).1, a.target = t.id := by
  cases ha : t.archived <;> cases sl <;> cases hl : t.locked <;>
    cases h1 : oracle (Action.setArchivedFalse t.id) <;>
    cases h2 : oracle (Action.sendMessage t.id) <;>
    cases h3 : oracle (Action.setLockedTrue t.id) <;>
      simp_all [processThread, externalCall, Action.target]

theorem processThread_noFail_sends (t : Thread) (sl : Bool) :
    (processThread noFail t sl).1.filter Action.isSend =
      if sl then [Action.sendMessage t.id] else [] := by
  rw [processThread_noFail_eq]
  cases ha : t.archived <;> cases sl <;> cases hl : t.locked <;>
    simp [Action.isSend]

theorem processThread_noFail_lock (t : Thread) (sl : Bool)
    (h : t.locked = false) :
    Action.setLockedTrue t.id ∈ (processThread noFail t sl).1 := by
  rw [processThread_noFail_eq]
  simp [h]

/-!
Helper lemmas about `processBatchGo`.
-/

theorem go_cons_skip (oracle : Action → Option String) (n : Nat) (t : Thread)
    (rest : List Thread) (st : BatchSt) (h : t.id = n ∨ t.id ∈ st.processed) :
    processBatchGo oracle n (t :: rest) st = processBatchGo oracle n rest st := by
  simp [processBatchGo, h]

theorem go_cons_proc_noFail (n : Nat) (t : Thread) (rest : List Thread)
    (st : BatchSt) (h : ¬(t.id = n ∨ t.id ∈ st.processed)) :
    processBatchGo noFail n (t :: rest) st =
      ((processThread noFail t (!st.secondLatestProcessed)).1 ++
        (processBatchGo noFail n rest ⟨st.processed ++ [t.id], true⟩).1,
       (processBatchGo noFail n rest ⟨st.processed ++ [t.id], true⟩).2) := by
  have ht : t.id ≠ n := fun hh => h (Or.inl hh)
  have hpr : t.id ∉ st.processed := fun hh => h (Or.inr hh)
  have hb : (t.id != n) = true := by simp [ht]
  simp [processBatchGo, h, ht, hpr, hb, processThread_noFail_eq,
    Bool.or_not_self]

theorem go_noFail_err (n : Nat) :
    ∀ (L : List Thread) (st : BatchSt),
      (processBatchGo noFail n L st).2.2 = none := by
  intro L
  induction L with
  | nil => intro st; simp [processBatchGo]
  | cons t rest ih =>
    intro st
    by_cases h : t.id = n ∨ t.id ∈ st.processed
    · rw [go_cons_skip _ _ _ _ _ h]; exact ih st
    · rw [go_cons_proc_noFail _ _ _ _ h]
      exact ih _

theorem go_sends_done (n : Nat) :
    ∀ (L : List Thread) (st : BatchSt), st.secondLatestProcessed = true →
      (processBatchGo noFail n L st).1.filter Action.isSend = [] := by
  intro L
  induction L with
  | nil => intro st _; simp [processBatchGo]
  | cons t rest ih =>
    intro st hst
    by_cases h : t.id = n ∨ t.id ∈ st.processed
    · rw [go_cons_skip _ _ _ _ _ h]; exact ih st hst
    · rw [go_cons_proc_noFail _ _ _ _ h]
      simp only [List.filter_append, hst]
      rw [processThread_noFail_sends, ih ⟨st.processed ++ [t.id], true⟩ rfl]
      simp

theorem go_sends_not_done (n : Nat) :
    ∀ (L : List Thread) (st : BatchSt), st.secondLatestProcessed = false →
      (processBatchGo noFail n L st).1.filter Action.isSend =
        (match L.find? (fun t => decide (¬(t.id = n ∨ t.id ∈ st.processed))) with
         | some r => [Action.sendMessage r.id]
         | none => []) := by
  intro L
  induction L with
  | nil => intro st _; simp [processBatchGo]
  | cons t rest ih =>
    intro st hst
    by_cases h : t.id = n ∨ t.id ∈ st.processed
    · rw [go_cons_skip _ _ _ _ _ h, List.find?_cons_of_neg _ (by simp [h]),
        ih st hst]
    · rw [go_cons_proc_noFail _ _ _ _ h, List.find?_cons_of_pos _ (by simp [h])]
      simp only [List.filter_append, hst]
      rw [processThread_noFail_sends, go_sends_done n rest ⟨st.processed ++ [t.id], true⟩ rfl]
      simp

theorem go_locks (n : Nat) :
    ∀ (L : List Thread) (st : BatchSt) (t : Thread), t ∈ L →
      t.locked = false → t.id ≠ n → t.id ∉ st.processed →
      (L.map Thread.id).Nodup →
      Action.setLockedTrue t.id ∈ (processBatchGo noFail n L st).1 := by
  intro L
  induction L with
  | nil => intro st t hmem; cases hmem
  | cons hd rest ih =>
    intro st t hmem hlock htrig hproc hnodup
    have hnodup_rest : (rest.map Thread.id).Nodup := by
      simpa using hnodup.of_cons
    rcases List.mem_cons.mp hmem with heq | hmem_rest
    · subst heq
      have h : ¬(t.id = n ∨ t.id ∈ st.processed) := by
        intro hh; rcases hh with hh | hh
        · exact htrig hh
        · exact hproc hh
      rw [go_cons_proc_noFail _ _ _ _ h]
      exact List.mem_append_left _ (processThread_noFail_lock t _ hlock)
    · by_cases h : hd.id = n ∨ hd.id ∈ st.processed
      · rw [go_cons_skip _ _ _ _ _ h]
        exact ih st t hmem_rest hlock htrig hproc hnodup_rest
      · rw [go_cons_proc_noFail _ _ _ _ h]
        refine List.mem_append_right _ ?_
        refine ih _ t hmem_rest hlock htrig ?_ hnodup_rest
        have hne : t.id ≠ hd.id := by
          have h1 : (Thread.id hd :: rest.map Thread.id).Nodup := by
            simpa using hnodup
          intro hc
          exact (List.nodup_cons.mp h1).1
            (hc ▸ List.mem_map_of_mem Thread.id hmem_rest)
        simp [hne, hproc]

theorem go_targets (oracle : Action → Option String) (n : Nat) :
    ∀ (L : List Thread) (st : BatchSt) (a : Action),
      a ∈ (processBatchGo oracle n L st).1 → a.target ≠ n := by
  intro L
  induction L with
  | nil => intro st a ha; simp [processBatchGo] at ha
  | cons t rest ih =>
    intro st a ha
    by_cases h : t.id = n ∨ t.id ∈ st.processed
    · rw [go_cons_skip _ _ _ _ _ h] at ha
      exact ih st a ha
    · have ht : t.id ≠ n := fun hh => h (Or.inl hh)
      simp only [processBatchGo, if_neg h] at ha
      rcases hpt : processThread oracle t
          (!st.secondLatestProcessed && (t.id != n)) with ⟨acts, err⟩
      rw [hpt] at ha
      cases err with
      | some e =>
        simp only at ha
        have := processThread_targets oracle t
          (!st.secondLatestProcessed && (t.id != n)) a (by rw [hpt]; exact ha)
        rw [this]; exact ht
      | none =>
        simp only at ha
        rcases List.mem_append.mp ha with hleft | hright
        · have := processThread_targets oracle t
            (!st.secondLatestProcessed && (t.id != n)) a (by rw [hpt]; exact hleft)
          rw [this]; exact ht
        · exact ih _ a hright

/-!
The chunked outer loop is equivalent to the flat sequential loop: the
batches are the consecutive slices of the thread list and the loop state
(and any uncaught error) threads through them in order.
-/

theorem go_append_err (oracle : Action → Option String) (n : Nat) (e : String) :
    ∀ (L1 : List Thread) (st : BatchSt),
      (processBatchGo oracle n L1 st).2.2 = some e →
      ∀ L2, processBatchGo oracle n (L1 ++ L2) st = processBatchGo oracle n L1 st := by
  intro L1
  induction L1 with
  | nil => intro st h; simp [processBatchGo] at h
  | cons t rest ih =>
    intro st h L2
    by_cases hskip : t.id = n ∨ t.id ∈ st.processed
    · rw [go_cons_skip _ _ _ _ _ hskip] at h
      rw [List.cons_append, go_cons_skip _ _ _ _ _ hskip,
        go_cons_skip _ _ _ _ _ hskip]
      exact ih st h L2
    · rw [List.cons_append]
      simp only [processBatchGo, if_neg hskip] at h ⊢
      rcases hpt : processThread oracle t
          (!st.secondLatestProcessed && (t.id != n)) with ⟨acts, err⟩
      rw [hpt] at h
      cases err with
      | some e2 => rfl
      | none =>
        dsimp only at h ⊢
        rw [ih _ h L2]

theorem go_append_ok (oracle : Action → Option String) (n : Nat) :
    ∀ (L1 : List Thread) (st : BatchSt),
      (processBatchGo oracle n L1 st).2.2 = none →
      ∀ L2, processBatchGo oracle n (L1 ++ L2) st =
        ((processBatchGo oracle n L1 st).1 ++
          (processBatchGo oracle n L2 (processBatchGo oracle n L1 st).2.1).1,
         (processBatchGo oracle n L2 (processBatchGo oracle n L1 st).2.1).2) := by
  intro L1
  induction L1 with
  | nil => intro st _ L2; simp [processBatchGo]
  | cons t rest ih =>
    intro st h L2
    by_cases hskip : t.id = n ∨ t.id ∈ st.processed
    · rw [go_cons_skip _ _ _ _ _ hskip] at h
      rw [List.cons_append, go_cons_skip _ _ _ _ _ hskip,
        go_cons_skip _ _ _ _ _ hskip]
      exact ih st h L2
    · rw [List.cons_append]
      simp only [processBatchGo, if_neg hskip] at h ⊢
      rcases hpt : processThread oracle t
          (!st.secondLatestProcessed && (t.id != n)) with ⟨acts, err⟩
      rw [hpt] at h
      cases err with
      | some e2 => dsimp only at h; exact Option.noConfusion h
      | none =>
        dsimp only at h ⊢
        rw [ih _ h L2]
        simp [List.append_assoc]

theorem runBatches_eq_go (oracle : Action → Option String) (n : Nat) :
    ∀ (L : List Thread) (st : BatchSt),
      runBatches oracle n (toBatches L) st = processBatchGo oracle n L st := by
  have main : ∀ (k : Nat) (L : List Thread), L.length ≤ k → ∀ st,
      runBatches oracle n (toBatchesGo k L) st = processBatchGo oracle n L st := by
    intro k
    induction k with
    | zero =>
      intro L hL st
      have : L = [] := List.length_eq_zero.mp (Nat.le_zero.mp hL)
      subst this
      simp [toBatchesGo, runBatches, processBatchGo]
    | succ k ih =>
      intro L hL st
      match L with
      | [] => simp [toBatchesGo, runBatches, processBatchGo]
      | hd :: rest =>
        rw [toBatchesGo]
        have hsplit : (hd :: rest).take BATCH_SIZE ++ (hd :: rest).drop BATCH_SIZE
            = hd :: rest := List.take_append_drop _ _
        have hdroplen : ((hd :: rest).drop BATCH_SIZE).length ≤ k := by
          simp only [List.length_drop, List.length_cons]
          have : rest.length + 1 ≤ k + 1 := by simpa using hL
          simp [BATCH_SIZE]; omega
        rw [runBatches]
        rcases hg : processBatchGo oracle n ((hd :: rest).take BATCH_SIZE) st
          with ⟨a1, st1, e⟩
        cases e with
        | some e2 =>
          simp only
          rw [← hsplit, go_append_err oracle n e2 _ st (by rw [hg]) _, hg]
        | none =>
          simp only
          rw [ih _ hdroplen st1]
          conv_rhs => rw [← hsplit]
          rw [go_append_ok oracle n _ st (by rw [hg]) _, hg]
  exact fun L st => main L.length L le_rfl st

theorem processThreadsBatch_eq_go (oracle : Action → Option String)
    (L : List Thread) (n : Nat) :
    processThreadsBatch oracle L n =
      ((processBatchGo oracle n L ⟨[], false⟩).1,
       (processBatchGo oracle n L ⟨[], false⟩).2.2) := by
  rw [processThreadsBatch, runBatches_eq_go]

/-!
Sorting lemmas: `sortDesc` is a permutation sorted descending by creation
timestamp, and the first element `find?` locates is maximal among all
elements satisfying the predicate.
-/

instance : IsTotal Thread (fun a b => b.createdAt ≤ a.createdAt) :=
  ⟨fun a b => Nat.le_total b.createdAt a.createdAt⟩

instance : IsTrans Thread (fun a b => b.createdAt ≤ a.createdAt) :=
  ⟨fun _ _ _ hab hbc => le_trans hbc hab⟩

theorem sortDesc_perm (l : List Thread) : (sortDesc l).Perm l :=
  List.perm_insertionSort _ l

theorem sortDesc_sorted (l : List Thread) :
    List.Pairwise (fun a b => b.createdAt ≤ a.createdAt) (sortDesc l) :=
  List.sorted_insertionSort _ l

theorem sorted_find?_max (p : Thread → Bool) :
    ∀ (L : List Thread) (r : Thread),
      List.Pairwise (fun a b => b.createdAt ≤ a.createdAt) L →
      L.find? p = some r →
      ∀ t ∈ L, p t = true → t.createdAt ≤ r.createdAt := by
  intro L
  induction L with
  | nil => intro r _ hfind; simp at hfind
  | cons hd rest ih =>
    intro r hsort hfind t hmem hp
    rcases List.pairwise_cons.mp hsort with ⟨hhd, hrest⟩
    by_cases hphd : p hd = true
    · rw [List.find?_cons_of_pos _ hphd] at hfind
      injection hfind with hfind
      subst hfind
      rcases List.mem_cons.mp hmem with heq | hmem_rest
      · subst heq; exact le_rfl
      · exact hhd t hmem_rest
    · rw [List.find?_cons_of_neg _ hphd] at hfind
      rcases List.mem_cons.mp hmem with heq | hmem_rest
      · subst heq; exact absurd hp hphd
      · exact ih r hrest hfind t hmem_rest hp

/-!
Helper lemmas about the reconciler's thread selection.
-/

theorem mem_unlockedSorted (s : List Thread) (t : Thread) :
    t ∈ unlockedSorted s ↔ t ∈ s ∧ t.locked = false := by
  rw [unlockedSorted, (sortDesc_perm _).mem_iff, List.mem_filter]
  simp

theorem unlockedSorted_length (s : List Thread) :
    (unlockedSorted s).length = (s.filter (fun t => !t.locked)).length :=
  (sortDesc_perm _).length_eq

theorem unlockedSorted_nodup_ids (s : List Thread)
    (h : (s.map Thread.id).Nodup) :
    ((unlockedSorted s).map Thread.id).Nodup := by
  have hperm : ((unlockedSorted s).map Thread.id).Perm
      ((s.filter (fun t => !t.locked)).map Thread.id) :=
    (sortDesc_perm _).map Thread.id
  rw [hperm.nodup_iff]
  exact ((List.filter_sublist s).map Thread.id).nodup h

theorem exists_ne_of_nodup_two (L : List Thread) (g : Nat)
    (hnodup : (L.map Thread.id).Nodup) (hlen : 2 ≤ L.length) :
    ∃ t ∈ L, t.id ≠ g := by
  match L, hlen with
  | a :: b :: rest, _ =>
    have hab : a.id ≠ b.id := by
      have h1 : (Thread.id a :: Thread.id b :: rest.map Thread.id).Nodup := by
        simpa using hnodup
      have := (List.nodup_cons.mp h1).1
      simp only [List.mem_cons] at this
      intro hc; exact this (Or.inl hc)
    by_cases hag : a.id = g
    · exact ⟨b, by simp, fun hc => hab (by rw [hag, hc])⟩
    · exact ⟨a, by simp, hag⟩

theorem reconcile_eq_go (s : List Thread) (g : Nat)
    (h : 2 ≤ (s.filter (fun t => !t.locked)).length) :
    reconcile s g = (processBatchGo noFail g (unlockedSorted s) ⟨[], false⟩).1 := by
  have hlen : 2 ≤ (unlockedSorted s).length := by
    rw [unlockedSorted_length]; exact h
  simp only [reconcile, reconcileActions, if_pos hlen]
  rw [processThreadsBatch_eq_go]

theorem go_all_trigger (oracle : Action → Option String) (n : Nat) :
    ∀ (L : List Thread) (st : BatchSt), (∀ t ∈ L, t.id = n) →
      processBatchGo oracle n L st = ([], st, none) := by
  intro L
  induction L with
  | nil => intro st _; simp [processBatchGo]
  | cons t rest ih =>
    intro st hall
    rw [go_cons_skip _ _ _ _ _ (Or.inl (hall t (by simp)))]
    exact ih st fun t ht => hall t (by simp [ht])

/-!
Claim theorems for the reconciler.
-/

/-- C1. For every thread list containing at least 2 unlocked threads (the
trigger among them), the reconciliation run issues exactly one send-message
action, and its recipient is an unlocked, non-trigger thread whose creation
timestamp is maximal among all unlocked non-trigger threads (the first
non-trigger thread in descending creation-time order). -/
theorem reconciler_unique_second_latest_send (snapshot : List Thread)
    (triggerId : Nat) (hnodup : (snapshot.map Thread.id).Nodup)
    (_htrig : ∃ tr ∈ snapshot, tr.id = triggerId ∧ tr.locked = false)
    (hcount : 2 ≤ (snapshot.filter (fun t => !t.locked)).length) :
    ∃ r, r ∈ snapshot ∧ r.locked = false ∧ r.id ≠ triggerId ∧
      (∀ t ∈ snapshot, t.locked = false → t.id ≠ triggerId →
        t.createdAt ≤ r.createdAt) ∧
      (reconcile snapshot triggerId).filter Action.isSend =
        [Action.sendMessage r.id] := by
  classical
  have hLnodup := unlockedSorted_nodup_ids snapshot hnodup
  have hLlen : 2 ≤ (unlockedSorted snapshot).length := by
    rw [unlockedSorted_length]; exact hcount
  obtain ⟨t0, ht0mem, ht0ne⟩ :=
    exists_ne_of_nodup_two (unlockedSorted snapshot) triggerId hLnodup hLlen
  have hpred : ∀ t : Thread,
      (decide (¬(t.id = triggerId ∨ t.id ∈ ([] : List Nat))) = true) ↔
        t.id ≠ triggerId := by intro t; simp
  have hfind : ((unlockedSorted snapshot).find?
      (fun t => decide (¬(t.id = triggerId ∨ t.id ∈ ([] : List Nat))))).isSome = true :=
    List.find?_isSome.mpr ⟨t0, ht0mem, (hpred t0).mpr ht0ne⟩
  obtain ⟨r, hr⟩ := Option.isSome_iff_exists.mp hfind
  have hrmem : r ∈ unlockedSorted snapshot := List.mem_of_find?_eq_some hr
  have hrsnap := (mem_unlockedSorted snapshot r).mp hrmem
  have hrp := List.find?_some hr
  have hrne : r.id ≠ triggerId := by simpa using hrp
  refine ⟨r, hrsnap.1, hrsnap.2, hrne, ?_, ?_⟩
  · intro t htmem htlock htne
    have htL : t ∈ unlockedSorted snapshot :=
      (mem_unlockedSorted snapshot t).mpr ⟨htmem, htlock⟩
    exact sorted_find?_max _ (unlockedSorted snapshot) r
      (sortDesc_sorted _) hr t htL ((hpred t).mpr htne)
  · rw [reconcile_eq_go snapshot triggerId hcount,
      go_sends_not_done triggerId (unlockedSorted snapshot) ⟨[], false⟩ rfl]
    simp only [hr]

theorem reconciler_unique_second_latest_send_witness :
    ((reconcile [demoT1, demoT2, demoT3] 3).filter Action.isSend).length = 1 := by
  obtain ⟨r, -, -, -, -, h5⟩ := reconciler_unique_second_latest_send
    [demoT1, demoT2, demoT3] 3 (by decide)
    ⟨demoT3, by decide, by decide, by decide⟩ (by decide)
  rw [h5]
  rfl

/-- C6. For every oracle (i.e. also in the presence of external-call
failures), every thread list and every reconciliation run, no emitted
action targets the triggering thread's identifier. -/
theorem trigger_excluded_from_plan (oracle : Action → Option String)
    (snapshot : List Thread) (triggerId : Nat) :
    ∀ a ∈ (reconcileActions oracle snapshot triggerId).1,
      a.target ≠ triggerId := by
  intro a ha
  simp only [reconcileActions] at ha
  by_cases h : 2 ≤ (unlockedSorted snapshot).length
  · rw [if_pos h, processThreadsBatch_eq_go] at ha
    exact go_targets oracle triggerId _ _ a ha
  · rw [if_neg h] at ha
    simp at ha

theorem trigger_excluded_from_plan_witness :
    (Action.sendMessage 2).target ≠ 3 :=
  trigger_excluded_from_plan noFail [demoT1, demoT2, demoT3] 3
    (Action.sendMessage 2) (by decide)

/-- C7. If every non-trigger thread of the snapshot is already locked,
re-running the reconciliation issues no external call at all. -/
theorem locked_snapshot_empty_plan (snapshot : List Thread) (triggerId : Nat)
    (h : ∀ t ∈ snapshot, t.id ≠ triggerId → t.locked = true) :
    reconcile snapshot triggerId = [] := by
  classical
  by_cases hlen : 2 ≤ (unlockedSorted snapshot).length
  · have hall : ∀ t ∈ unlockedSorted snapshot, t.id = triggerId := by
      intro t ht
      rcases (mem_unlockedSorted snapshot t).mp ht with ⟨hmem, hlock⟩
      by_contra hne
      rw [h t hmem hne] at hlock
      exact Bool.noConfusion hlock
    simp only [reconcile, reconcileActions, if_pos hlen,
      processThreadsBatch_eq_go, go_all_trigger noFail triggerId _ _ hall]
  · simp [reconcile, reconcileActions, hlen]

/-- Demo thread: oldest, already locked. -/
def demoLocked1 : Thread := ⟨1, 9, "t1", 1, false, true⟩

theorem locked_snapshot_empty_plan_witness :
    reconcile [demoLocked1, demoT3] 3 = [] :=
  locked_snapshot_empty_plan [demoLocked1, demoT3] 3 (by decide)

/-- C8. For every thread and selection flag, a failure-free `processThread`
run issues exactly the calls unarchive-if-archived, then
send-message-if-selected, then lock-if-unlocked, in that fixed order, each
as a distinct external call; in particular an archived, unlocked
second-latest thread receives unarchive, then the message, then lock. -/
theorem processThread_fixed_action_order (t : Thread) (sl : Bool) :
    processThread noFail t sl =
      ((if t.archived then [Action.setArchivedFalse t.id] else []) ++
       (if sl then [Action.sendMessage t.id] else []) ++
       (if !t.locked then [Action.setLockedTrue t.id] else []), none) :=
  processThread_noFail_eq t sl

/-- C9. If the (fresh) cached snapshot predates the trigger — the trigger's
id is absent — and contains at least 2 unlocked threads, then every unlocked
snapshot thread receives a lock action (including the newest one), and a
newest unlocked snapshot thread receives the redirect message. -/
theorem stale_snapshot_locks_all (snapshot : List Thread) (triggerId : Nat)
    (habsent : triggerId ∉ snapshot.map Thread.id)
    (hnodup : (snapshot.map Thread.id).Nodup)
    (hcount : 2 ≤ (snapshot.filter (fun t => !t.locked)).length) :
    (∀ t ∈ snapshot, t.locked = false →
       Action.setLockedTrue t.id ∈ reconcile snapshot triggerId) ∧
    (∃ r, r ∈ snapshot ∧ r.locked = false ∧
       (∀ t ∈ snapshot, t.locked = false → t.createdAt ≤ r.createdAt) ∧
       Action.sendMessage r.id ∈ reconcile snapshot triggerId) := by
  classical
  have hLnodup := unlockedSorted_nodup_ids snapshot hnodup
  have hLlen : 2 ≤ (unlockedSorted snapshot).length := by
    rw [unlockedSorted_length]; exact hcount
  have hne : ∀ t ∈ snapshot, t.id ≠ triggerId := by
    intro t htmem hc
    exact habsent (hc ▸ List.mem_map_of_mem Thread.id htmem)
  constructor
  · intro t htmem htlock
    rw [reconcile_eq_go snapshot triggerId hcount]
    exact go_locks triggerId (unlockedSorted snapshot) ⟨[], false⟩ t
      ((mem_unlockedSorted snapshot t).mpr ⟨htmem, htlock⟩) htlock
      (hne t htmem) (by simp) hLnodup
  · obtain ⟨t0, ht0mem, -⟩ :=
      exists_ne_of_nodup_two (unlockedSorted snapshot) triggerId hLnodup hLlen
    have hpred : ∀ t : Thread, t ∈ unlockedSorted snapshot →
        (decide (¬(t.id = triggerId ∨ t.id ∈ ([] : List Nat))) = true) := by
      intro t ht
      simp only [List.not_mem_nil, or_false, decide_not, Bool.not_eq_true',
        decide_eq_false_iff_not]
      exact hne t ((mem_unlockedSorted snapshot t).mp ht).1
    have hfind : ((unlockedSorted snapshot).find?
        (fun t => decide (¬(t.id = triggerId ∨ t.id ∈ ([] : List Nat))))).isSome
          = true :=
      List.find?_isSome.mpr ⟨t0, ht0mem, hpred t0 ht0mem⟩
    obtain ⟨r, hr⟩ := Option.isSome_iff_exists.mp hfind
    have hrmem : r ∈ unlockedSorted snapshot := List.mem_of_find?_eq_some hr
    have hrsnap := (mem_unlockedSorted snapshot r).mp hrmem
    refine ⟨r, hrsnap.1, hrsnap.2, ?_, ?_⟩
    · intro t htmem htlock
      have htL : t ∈ unlockedSorted snapshot :=
        (mem_unlockedSorted snapshot t).mpr ⟨htmem, htlock⟩
      exact sorted_find?_max _ (unlockedSorted snapshot) r
        (sortDesc_sorted _) hr t htL (hpred t htL)
    · have hsend : (reconcile snapshot triggerId).filter Action.isSend =
          [Action.sendMessage r.id] := by
        rw [reconcile_eq_go snapshot triggerId hcount,
          go_sends_not_done triggerId (unlockedSorted snapshot) ⟨[], false⟩ rfl]
        simp only [hr]
      have hself : Action.sendMessage r.id ∈
          (reconcile snapshot triggerId).filter Action.isSend := by
        rw [hsend]; simp
      exact List.mem_of_mem_filter hself

theorem stale_snapshot_locks_all_witness :
    Action.setLockedTrue 1 ∈ reconcile [demoT1, demoT2] 5 :=
  (stale_snapshot_locks_all [demoT1, demoT2] 5 (by decide) (by decide)
    (by decide)).1 demoT1 (by decide) (by decide)

/-!
Rate limiter analysis. The queue path of `canProceed` resolves its promise
with `true` after `timeWindow` milliseconds without recording a timestamp
and without re-checking the count, so operations released from the queue are
not bounded by `maxOperations` per window; only the immediately admitted
(recorded) operations are.
-/

theorem windowCount_append (timeWindow : Nat) (l1 l2 : List Nat) (T : Nat) :
    windowCount timeWindow (l1 ++ l2) T =
      windowCount timeWindow l1 T + windowCount timeWindow l2 T := by
  simp [windowCount, List.filter_append]

theorem windowCount_single (timeWindow x T : Nat) :
    windowCount timeWindow [x] T =
      if x ≤ T ∧ T - x < timeWindow then 1 else 0 := by
  by_cases h1 : x ≤ T
  · by_cases h2 : T - x < timeWindow <;> simp [windowCount, h1, h2]
  · simp [windowCount, h1]

/-- Invariant carried along a run of `canProceed` calls at nondecreasing
times: all recorded and admitted timestamps lie in the past; the immediate
admissions respect the window bound; and the stored entry, filtered at any
current-or-future time, counts exactly the admissions in that time's
trailing window. -/
def rlInv (maxOperations timeWindow tcur : Nat) (st : RLState) : Prop :=
  (∀ s ∈ st.ops, s ≤ tcur) ∧
  (∀ s ∈ st.admitted, s ≤ tcur) ∧
  (∀ T, windowCount timeWindow st.admitted T ≤ maxOperations) ∧
  (∀ t, tcur ≤ t →
    (st.ops.filter (fun s => t - s < timeWindow)).length =
      windowCount timeWindow st.admitted t)

theorem rlInv_step (maxOperations timeWindow tcur now : Nat) (st : RLState)
    (h : rlInv maxOperations timeWindow tcur st) (hle : tcur ≤ now) :
    rlInv maxOperations timeWindow now
      (canProceedStep maxOperations timeWindow st now) := by
  obtain ⟨hops, hadm, hbound, hcorr⟩ := h
  unfold canProceedStep
  by_cases hful : maxOperations ≤
      (st.ops.filter (fun time => now - time < timeWindow)).length
  · rw [if_pos hful]
    exact ⟨fun s hs => le_trans (hops s hs) hle,
           fun s hs => le_trans (hadm s hs) hle,
           hbound,
           fun t ht => hcorr t (le_trans hle ht)⟩
  · rw [if_neg hful]
    have hlt : (st.ops.filter (fun time => now - time < timeWindow)).length <
        maxOperations := Nat.lt_of_not_le hful
    refine ⟨?_, ?_, ?_, ?_⟩
    · intro s hs
      rcases List.mem_append.mp hs with hs | hs
      · exact le_trans (hops s (List.mem_of_mem_filter hs)) hle
      · simp at hs; omega
    · intro s hs
      rcases List.mem_append.mp hs with hs | hs
      · exact le_trans (hadm s hs) hle
      · simp at hs; omega
    · intro T
      rw [windowCount_append, windowCount_single]
      by_cases hin : now ≤ T ∧ T - now < timeWindow
      · have hmono : windowCount timeWindow st.admitted T ≤
            windowCount timeWindow st.admitted now := by
          rw [windowCount, windowCount, ← List.countP_eq_length_filter,
            ← List.countP_eq_length_filter]
          apply List.countP_mono_left
          intro s hs hsT
          have hsc : s ≤ tcur := hadm s hs
          simp only [Bool.and_eq_true, decide_eq_true_eq] at hsT ⊢
          omega
        have hnoweq : windowCount timeWindow st.admitted now =
            (st.ops.filter (fun time => now - time < timeWindow)).length :=
          (hcorr now hle).symm
        rw [if_pos hin]
        omega
      · rw [if_neg hin]
        have := hbound T
        omega
    · intro t ht
      rw [List.filter_append, List.length_append, windowCount_append]
      have e1 : (st.ops.filter (fun time => now - time < timeWindow)).filter
            (fun s => t - s < timeWindow)
          = st.ops.filter (fun s => t - s < timeWindow) := by
        rw [List.filter_filter]
        apply List.filter_congr
        intro x _
        by_cases hp : t - x < timeWindow
        · have hq : now - x < timeWindow := by omega
          simp [hp, hq]
        · simp [hp]
      have e2 : (([now] : List Nat).filter
            (fun s => t - s < timeWindow)).length = windowCount timeWindow [now] t := by
        rw [windowCount_single]
        by_cases hp : t - now < timeWindow <;> simp [hp, ht]
      rw [e1, hcorr t (le_trans hle ht), e2]

theorem rlInv_run (maxOperations timeWindow : Nat) :
    ∀ (calls : List Nat) (tcur : Nat) (st : RLState),
      rlInv maxOperations timeWindow tcur st → (∀ c ∈ calls, tcur ≤ c) →
      List.Sorted (· ≤ ·) calls →
      ∃ tc, rlInv maxOperations timeWindow tc
        (calls.foldl (canProceedStep maxOperations timeWindow) st) := by
  intro calls
  induction calls with
  | nil => intro tcur st h _ _; exact ⟨tcur, h⟩
  | cons c rest ih =>
    intro tcur st h hall hsorted
    rcases List.pairwise_cons.mp hsorted with ⟨hc, hrest⟩
    exact ih c (canProceedStep maxOperations timeWindow st c)
      (rlInv_step maxOperations timeWindow tcur c st h (hall c (by simp)))
      hc hrest

/-- C2 amended. For every configuration and every nondecreasing sequence of
`canProceed` call times, the operations admitted immediately (the ones
recorded in `this.operations`) never exceed `maxOperations` in any trailing
window of duration `timeWindow`. (Operations released from the queue are NOT
so bounded — see the counterexample.) -/
theorem rateLimit_immediate_admissions_bounded (maxOperations timeWindow : Nat)
    (calls : List Nat) (hsorted : List.Sorted (· ≤ ·) calls) (T : Nat) :
    windowCount timeWindow (rlRun maxOperations timeWindow calls).admitted T ≤
      maxOperations := by
  have hinit : rlInv maxOperations timeWindow 0 ⟨[], [], []⟩ := by
    refine ⟨by simp, by simp, ?_, ?_⟩
    · intro T'; simp [windowCount]
    · intro t _; simp [windowCount]
  obtain ⟨tc, hinv⟩ := rlInv_run maxOperations timeWindow calls 0 ⟨[], [], []⟩
    hinit (fun c _ => Nat.zero_le c) hsorted
  exact hinv.2.2.1 T

/-- Eleven `canProceed` calls: five at time 0 (all admitted immediately,
filling the window) and six at time 1 (all queued). -/
def rlBurstCalls : List Nat := [0, 0, 0, 0, 0, 1, 1, 1, 1, 1, 1]

theorem rateLimit_immediate_admissions_bounded_witness :
    windowCount RATE_LIMIT_WINDOW
      (rlRun RATE_LIMIT_MAX_OPS RATE_LIMIT_WINDOW rlBurstCalls).admitted 10001 ≤
      RATE_LIMIT_MAX_OPS :=
  rateLimit_immediate_admissions_bounded RATE_LIMIT_MAX_OPS RATE_LIMIT_WINDOW
    rlBurstCalls (by decide) 10001

/-- C2 counterexample: with the default configuration (5 operations per
10000 ms window), the six calls queued at time 1 are all released (admitted
with value `true`) at time 10001, so the trailing window ending at 10001
contains 6 admitted operations — more than `maxOperations`. -/
theorem rateLimit_released_ops_exceed_max :
    windowCount RATE_LIMIT_WINDOW
      ((rlRun RATE_LIMIT_MAX_OPS RATE_LIMIT_WINDOW rlBurstCalls).admitted ++
       (rlRun RATE_LIMIT_MAX_OPS RATE_LIMIT_WINDOW rlBurstCalls).released)
      10001 = 6 ∧ RATE_LIMIT_MAX_OPS < 6 := by decide

/-!
Retry executor analysis.
-/

theorem withRetryLoop_success {α : Type} (op : Nat → Except String α)
    (maxR N : Nat) (v : α) (hN : N ≤ maxR) (hs : op N = Except.ok v) :
    ∀ (k a : Nat) (le : Option String) (acc : List Nat), a + k = N → 1 ≤ a →
      (∀ i, a ≤ i → i < N → ∃ e, op i = Except.error e) →
      withRetryLoop op maxR le acc a (maxR + 1 - a) =
        ⟨.success v, N, acc ++ (List.range' a (N - a)).map retryDelay⟩ := by
  intro k
  induction k with
  | zero =>
    intro a le acc hk h1 _
    have ha : a = N := by omega
    subst ha
    rcases hf : maxR + 1 - a with _ | f
    · omega
    · cases f with
      | zero =>
        show (match op a with
          | .ok v => (⟨.success v, a, acc⟩ : RetryResult α)
          | .error e => finalThrow α maxR (some e) a acc) = _
        rw [hs]
        simp
      | succ f =>
        show (match op a with
          | .ok v => (⟨.success v, a, acc⟩ : RetryResult α)
          | .error e => withRetryLoop op maxR (some e)
              (acc ++ [retryDelay a]) (a + 1) (f + 1)) = _
        rw [hs]
        simp
  | succ k ih =>
    intro a le acc hk h1 hfail
    have haN : a < N := by omega
    rcases hf : maxR + 1 - a with _ | _ | f
    · omega
    · omega
    · obtain ⟨e, he⟩ := hfail a le_rfl haN
      show (match op a with
        | .ok v => (⟨.success v, a, acc⟩ : RetryResult α)
        | .error e => withRetryLoop op maxR (some e)
            (acc ++ [retryDelay a]) (a + 1) (f + 1)) = _
      rw [he]
      dsimp only
      have hfuel : f + 1 = maxR + 1 - (a + 1) := by omega
      rw [hfuel, ih (a + 1) (some e) (acc ++ [retryDelay a]) (by omega)
        (by omega) (fun i hi hiN => hfail i (by omega) hiN)]
      have hrange : N - a = (N - (a + 1)) + 1 := by omega
      rw [hrange, List.range'_succ]
      simp

theorem withRetryLoop_exhaust {α : Type} (op : Nat → Except String α)
    (maxR : Nat) (m : String) (hm : op maxR = Except.error m) :
    ∀ (k a : Nat) (le : Option String) (acc : List Nat), a + k = maxR → 1 ≤ a →
      (∀ i, a ≤ i → i < maxR → ∃ e, op i = Except.error e) →
      withRetryLoop op maxR le acc a (maxR + 1 - a) =
        ⟨.exhausted (exhaustMsg maxR m), maxR,
         acc ++ (List.range' a (maxR - a)).map retryDelay⟩ := by
  intro k
  induction k with
  | zero =>
    intro a le acc hk h1 _
    have ha : a = maxR := by omega
    subst ha
    have hf : a + 1 - a = 1 := by omega
    rw [hf]
    show (match op a with
      | .ok v => (⟨.success v, a, acc⟩ : RetryResult α)
      | .error e => finalThrow α a (some e) a acc) = _
    rw [hm]
    simp [finalThrow]
  | succ k ih =>
    intro a le acc hk h1 hfail
    have haN : a < maxR := by omega
    rcases hf : maxR + 1 - a with _ | _ | f
    · omega
    · omega
    · obtain ⟨e, he⟩ := hfail a le_rfl haN
      show (match op a with
        | .ok v => (⟨.success v, a, acc⟩ : RetryResult α)
        | .error e => withRetryLoop op maxR (some e)
            (acc ++ [retryDelay a]) (a + 1) (f + 1)) = _
      rw [he]
      dsimp only
      have hfuel : f + 1 = maxR + 1 - (a + 1) := by omega
      rw [hfuel, ih (a + 1) (some e) (acc ++ [retryDelay a]) (by omega)
        (by omega) (fun i hi hiN => hfail i (by omega) hiN)]
      have hrange : maxR - a = (maxR - (a + 1)) + 1 := by omega
      rw [hrange, List.range'_succ]
      simp

/-- C4. For every operation and every N with 1 ≤ N ≤ maxAttempts such that
attempts 1..(N-1) fail: if attempt N succeeds, `withRetry` returns that
success after exactly N invocations, having awaited the scheduled backoff
`delays[attempt-1] || delays[delays.length-1]` before each retry (holding
the last schedule value beyond its length); if instead N = maxAttempts and
attempt N also fails, `withRetry` throws the exhausted-retries error
carrying the last underlying error's message. -/
theorem withRetry_spec {α : Type} (op : Nat → Except String α)
    (maxAttempts N : Nat) (h1 : 1 ≤ N) (h2 : N ≤ maxAttempts)
    (hprev : ∀ i, 1 ≤ i → i < N → ∃ e, op i = Except.error e) :
    (∀ v, op N = Except.ok v →
      withRetry op maxAttempts =
        ⟨.success v, N, (List.range' 1 (N - 1)).map retryDelay⟩) ∧
    (∀ m, N = maxAttempts → op N = Except.error m →
      withRetry op maxAttempts =
        ⟨.exhausted (exhaustMsg maxAttempts m), maxAttempts,
         (List.range' 1 (maxAttempts - 1)).map retryDelay⟩) := by
  constructor
  · intro v hv
    have h := withRetryLoop_success op maxAttempts N v h2 hv (N - 1) 1 none []
      (by omega) le_rfl hprev
    rw [show maxAttempts + 1 - 1 = maxAttempts from by omega] at h
    rw [withRetry, h]
    simp
  · intro m hNm hm
    subst hNm
    have h := withRetryLoop_exhaust op N m hm (N - 1) 1 none []
      (by omega) le_rfl hprev
    rw [show N + 1 - 1 = N from by omega] at h
    rw [withRetry, h]
    simp

theorem withRetry_spec_witness :
    withRetry (fun i => if i = 2 then Except.ok 42 else Except.error "e") 2 =
      ⟨.success 42, 2, [1000]⟩ := by
  have h := (withRetry_spec (fun i => if i = 2 then Except.ok 42
      else Except.error "e") 2 2 (by omega) (by omega)
    (by
      intro i hi hilt
      have : i = 1 := by omega
      subst this
      exact ⟨"e", rfl⟩)).1 42 rfl
  rw [h]
  rfl

/-- C10. Invoking `withRetry` with `maxAttempts = 0` never invokes the
wrapped operation (zero attempts are made) and does not produce the
exhausted-retries error: the final throw is reached with `lastError` still
unset, so reading `lastError.message` raises a `TypeError`. -/
theorem withRetry_zero_attempts {α : Type} (op : Nat → Except String α) :
    withRetry op 0 = ⟨.typeErrorNoLastError, 0, []⟩ := rfl

/-!
Failure propagation through the batch executor (C3) and the cache expiry
boundary (C5).
-/

/-- C3 counterexample: with the trigger (id 0) and two unlocked threads
(ids 1 and 2, thread 1 newest) and an external send call to thread 1 that
throws, the reconciliation run returns that error — the failure escapes the
batch executor — and the remaining thread 2 receives no action at all. -/
theorem batch_failure_not_isolated :
    reconcileActions failSendOracle failSnapshot 0 =
      ([], some "ExternalOpError") ∧
    Action.setLockedTrue 2 ∉ (reconcileActions failSendOracle failSnapshot 0).1 := by
  decide

/-- C3 amended. A per-thread action failure is logged and rethrown by
`processThread`, and `processThreadsBatch` does not catch it: the batch run
stops at the failing thread, surfaces the error, and the threads after the
failing one in the run receive no actions (the result does not depend on
them at all). -/
theorem batch_failure_aborts (oracle : Action → Option String) (n : Nat)
    (L1 : List Thread) (t : Thread) (a1 : List Action) (st1 : BatchSt)
    (trace : List Action) (e : String)
    (h1 : processBatchGo oracle n L1 ⟨[], false⟩ = (a1, st1, none))
    (h2 : ¬(t.id = n ∨ t.id ∈ st1.processed))
    (h3 : processThread oracle t (!st1.secondLatestProcessed && (t.id != n)) =
      (trace, some e)) :
    ∀ L2, processThreadsBatch oracle (L1 ++ t :: L2) n = (a1 ++ trace, some e) := by
  intro L2
  rw [processThreadsBatch_eq_go,
    go_append_ok oracle n L1 ⟨[], false⟩ (by rw [h1]) (t :: L2), h1]
  dsimp only
  simp only [processBatchGo, if_neg h2]
  rw [h3]

theorem batch_failure_aborts_witness :
    processThreadsBatch failSendOracle
      [⟨1, 9, "t1", 2, false, false⟩, ⟨2, 9, "t2", 1, false, false⟩] 0 =
      ([], some "ExternalOpError") := by
  have h := batch_failure_aborts failSendOracle 0 []
    ⟨1, 9, "t1", 2, false, false⟩ [] ⟨[], false⟩ [] "ExternalOpError" rfl
    (by decide) (by decide) [⟨2, 9, "t2", 1, false, false⟩]
  simpa using h

/-- C5 counterexample: a read made exactly `cacheDuration` after the set
(elapsed time equal to, not strictly less than, the duration) returns the
stored snapshot and keeps the entry, although `now - timestamp <
cacheDuration` is false. -/
theorem threadCache_get_boundary :
    ThreadCache.get CACHE_DURATION (some ⟨0, [demoT1]⟩) CACHE_DURATION =
      (some [demoT1], some ⟨0, [demoT1]⟩) ∧
    ¬(CACHE_DURATION - 0 < CACHE_DURATION) := by decide

/-- C5 amended. A cache read returns the stored snapshot iff at most
`cacheDuration` has elapsed since the set (`now - timestamp ≤ duration`,
boundary inclusive); a read strictly past expiry returns absent and evicts
the entry, and a read with no entry returns absent. -/
theorem threadCache_get_spec (duration ts now : Nat) (thr : List Thread) :
    ((ThreadCache.get duration (some ⟨ts, thr⟩) now).1 = some thr ↔
      now - ts ≤ duration) ∧
    (duration < now - ts →
      ThreadCache.get duration (some ⟨ts, thr⟩) now = (none, none)) ∧
    ThreadCache.get duration none now = (none, none) := by
  refine ⟨?_, ?_, rfl⟩
  · unfold ThreadCache.get
    dsimp only
    by_cases h : duration < now - ts
    · rw [if_pos h]
      simp
      omega
    · rw [if_neg h]
      simp
      omega
  · intro h
    unfold ThreadCache.get
    dsimp only
    rw [if_pos h]

theorem threadCache_get_spec_witness :
    ThreadCache.get CACHE_DURATION (some ⟨0, []⟩) (CACHE_DURATION + 1) =
      (none, none) :=
  (threadCache_get_spec CACHE_DURATION 0 (CACHE_DURATION + 1) []).2.1 (by omega)

end ThreadLocker

